import Mathlib

/-!
Verification of the run-redistribution, batching, relationship-audit and
XML-repair logic of src/Streamlit/TextDocumentAnalyzer.py.

Modelling conventions.
A Python str is a sequence of code points and is modelled as a list of
characters (Str below).  A paragraph is the ordered list of the texts of its
w:t run elements; the in-place mutation of element texts performed by the
Python code is modelled by returning the new list of run texts.
Machine floats occur in the source only in the index expressions
int(i / ratio) (line 380) and int(startRatio * len(corrected)),
int(endRatio * len(corrected)) (lines 274-275), with
ratio = len(corrected) / len(original); these compute the rational floors
floor(i * origLen / corrLen) and floor(pos * corrLen / origLen), which are
modelled by exact natural-number division.  At every concrete input used
below the double-precision value agrees with the exact rational floor
(the quotients never fall on a representation boundary), and the general
theorems rely only on monotonicity and on the endpoint values i = 0 and
pos = len(original), where the float computation is exact.
-/

abbrev Str := List Char

/-- Character list of a Lean string literal, used to write concrete inputs. -/
def chars (s : String) : Str := s.toList

/-- Degenerate single-run behaviour: the branch at lines 358-363 of
_DistributeCorrectedTextImproved, the guard branch at lines 251-256 of
_DistributeTextToParagraph, and the except handler at lines 385-390.
The whole corrected text is placed into the first run and every other run
is cleared; with no runs at all nothing happens. -/
def singleRunFallback (elems : List Str) (corr : Str) : List Str :=
  match elems with
  | [] => []
  | _ :: rest => corr :: rest.map (fun _ => ([] : Str))

/-- Position-to-run index built by the loop at lines 370-376 of
_DistributeCorrectedTextImproved: one entry per character of the original
run texts, holding the index of the run element owning that character
(the Python loop appends the enumerate index i once per character). -/
def charPositions : List Str → List Nat
  | [] => []
  | e :: rest => List.replicate e.length 0 ++ (charPositions rest).map (· + 1)

/-- One iteration of the accumulation loop at lines 379-382:
isoElementTexts[idx] += c. -/
def bucketAdd (buckets : List Str) (idx : Nat) (c : Char) : List Str :=
  buckets.set idx (buckets.getD idx [] ++ [c])

/-- The accumulation loop at lines 379-382; i is the enumerate counter over
the corrected text. -/
def distributeCharsGo (posIdx : Nat → Nat) (i : Nat) (buckets : List Str) : Str → List Str
  | [] => buckets
  | c :: rest => distributeCharsGo posIdx (i + 1) (bucketAdd buckets (posIdx i) c) rest

/-- Accumulation over the whole corrected text, starting from
isoElementTexts = [""] * len(isoTextElements) (line 378). -/
def distributeChars (posIdx : Nat → Nat) (n : Nat) (corr : Str) : List Str :=
  distributeCharsGo posIdx 0 (List.replicate n []) corr

/-- Lines 380-381: isoOrigPos = min(int(i / isoRatio), len(isoCharPositions) - 1)
and isoElementIndex = isoCharPositions[isoOrigPos], with
isoRatio = len(corrected) / len(original), so int(i / isoRatio) is the
rational floor of i * origLen / corrLen. -/
def improvedPosIdx (elems : List Str) (origLen corrLen i : Nat) : Nat :=
  (charPositions elems).getD
    (min ((i * origLen) / corrLen) ((charPositions elems).length - 1)) 0

/-- The bucket texts computed by the general branch of
_DistributeCorrectedTextImproved (lines 370-382). -/
def improvedElementTexts (elems : List Str) (orig corr : Str) : List Str :=
  distributeChars (improvedPosIdx elems orig.length corr.length) elems.length corr

/-- Model of XMLDocumentCorrector._DistributeCorrectedTextImproved
(lines 356-390), success path (no exception).  Branches in source order:
the degenerate branch for empty original or corrected text (lines 358-363),
the all-runs-empty branch (lines 366-369, which sets only the first run and
leaves the rest untouched), and the general character-index distribution
followed by the write-back loop at lines 383-384 (whose final state is
exactly the computed bucket list). -/
def distributeCorrectedTextImproved (elems : List Str) (orig corr : Str) : List Str :=
  if orig.length = 0 ∨ corr.length = 0 then singleRunFallback elems corr
  else if (elems.map List.length).sum = 0 then
    match elems with
    | [] => []
    | _ :: rest => corr :: rest
  else improvedElementTexts elems orig corr

/-- The element-map loop of _DistributeTextToParagraph (lines 257-277):
runs of length zero are skipped (their text is left untouched, and they do
not advance the position counter); every other run with start position pos
receives the slice corrected[ns:ne] with
ns = min(int(pos / len(orig) * len(corr)), len(corr)) and
ne = min(int((pos + len) / len(orig) * len(corr)), len(corr)). -/
def sliceAssign (orig corr : Str) : List Str → Nat → List Str
  | [], _ => []
  | e :: rest, pos =>
    if e.length = 0 then e :: sliceAssign orig corr rest pos
    else
      (corr.drop (min ((pos * corr.length) / orig.length) corr.length)).take
          (min (((pos + e.length) * corr.length) / orig.length) corr.length
            - min ((pos * corr.length) / orig.length) corr.length)
        :: sliceAssign orig corr rest (pos + e.length)

/-- Model of XMLDocumentCorrector._DistributeTextToParagraph (lines 250-277):
guard branch for falsy (empty) original or corrected text, otherwise the
proportional slice assignment starting at position 0. -/
def distributeTextToParagraph (elems : List Str) (orig corr : Str) : List Str :=
  if orig = [] ∨ corr = [] then singleRunFallback elems corr
  else sliceAssign orig corr elems 0

/-- Python "not text.strip()" is true exactly when every character of the
text is whitespace (including the empty text); combined with the
"if not isoTextElements" guard this is the condition under which
_ProcessParagraphsInBatches (lines 221-226) collects a paragraph into the
batch and _ProcessSingleParagraph (lines 291-296) proceeds. -/
def needsCorrection (runs : List Str) : Bool :=
  !runs.isEmpty && !(runs.flatten.all Char.isWhitespace)

/-- Model of XMLDocumentCorrector._ProcessSingleParagraph (lines 290-303):
the paragraph text is the concatenation of its run texts; paragraphs with
no run elements or whitespace-only text return unchanged; otherwise the
corrector is called once and, when the answer differs, the slice
distribution is applied. -/
def processSingleParagraph (correct : Str → Str) (runs : List Str) : List Str :=
  if needsCorrection runs then
    let text := runs.flatten
    let corrected := correct text
    if corrected = text then runs else distributeTextToParagraph runs text corrected
  else runs

/-- The per-pair step at lines 246-248 of _ProcessParagraphsInBatches: a
section equal to the recorded original text is skipped, otherwise the slice
distribution is applied to the recorded elements and original text. -/
def applyCorrectedSection (runs : List Str) (originalText corrected : Str) : List Str :=
  if corrected = originalText then runs
  else distributeTextToParagraph runs originalText corrected

/-- The zip loop at lines 245-248: corrected sections are consumed in order
by the collected (needsCorrection) paragraphs; other paragraphs are left
untouched. -/
def applyBatchSections : List (List Str) → List Str → List (List Str)
  | [], _ => []
  | runs :: rest, sections =>
    if needsCorrection runs then
      match sections with
      | [] => runs :: applyBatchSections rest []
      | s :: srest => applyCorrectedSection runs runs.flatten s :: applyBatchSections rest srest
    else runs :: applyBatchSections rest sections

/-- The literal batch delimiter of lines 235 and 240. -/
def sectionBreak : Str := chars "\n==SECTION_BREAK==\n"

/-- Index of the first occurrence of sep in s, if any. -/
def findSubstring (sep : Str) : Str → Option Nat
  | [] => if sep.isPrefixOf ([] : Str) then some 0 else none
  | c :: rest =>
    if sep.isPrefixOf (c :: rest) then some 0
    else (findSubstring sep rest).map (· + 1)

/-- Fuel-driven splitter; the fuel bounds the number of separator
occurrences, and pySplit supplies enough for any input. -/
def pySplitGo (sep : Str) : Nat → Str → List Str
  | 0, s => [s]
  | fuel + 1, s =>
    match findSubstring sep s with
    | none => [s]
    | some i => s.take i :: pySplitGo sep fuel (s.drop (i + sep.length))

/-- Python str.split(sep) for a nonempty separator: the segments between
non-overlapping occurrences of sep, scanning left to right; a string with
no occurrence yields the one-element list [s]. -/
def pySplit (s sep : Str) : List Str := pySplitGo sep (s.length + 1) s

/-- Model of one iteration of the batch loop of
XMLDocumentCorrector._ProcessParagraphsInBatches (lines 216-248) on one
batch of paragraphs, with the correction service abstracted as a function
from text to text (the additional-instructions argument is folded into it).
Paragraphs with run elements and non-blank text are collected (lines
220-232); with nothing collected the batch is skipped (lines 233-234);
otherwise the collected texts are joined with the sentinel, corrected in
one call, and split on the sentinel (lines 235-240); on a segment-count
mismatch every collected paragraph is instead corrected individually
(lines 241-244); otherwise sections are applied pairwise (lines 245-248). -/
def processParagraphBatch (correct : Str → Str) (batch : List (List Str)) : List (List Str) :=
  let mappings := batch.filter needsCorrection
  let sectionTexts := mappings.map List.flatten
  if sectionTexts.isEmpty then batch
  else
    let correctedSections := pySplit (correct (List.intercalate sectionBreak sectionTexts)) sectionBreak
    if correctedSections.length ≠ mappings.length then
      batch.map (fun runs => if needsCorrection runs then processSingleParagraph correct runs else runs)
    else applyBatchSections batch correctedSections

/-- The synthetic identifier f"R{len(isoRelIds) + 1}" of line 109. -/
def relSyntheticId (seenCount : Nat) : Str := 'R' :: Nat.toDigits 10 (seenCount + 1)

/-- The relationship loop of DocxValidator._ValidateRelationships
(lines 104-112), restricted to the Id attribute (the Target existence check
only logs warnings and changes nothing).  seen models the Python set
isoRelIds: on a duplicate the entry is renamed to R(len(seen)+1) and the
subsequent isoRelIds.add of the old identifier leaves the set unchanged;
otherwise the identifier is added to the set. -/
def auditRelIdsGo (seen : List Str) : List Str → List Str
  | [] => []
  | relId :: rest =>
    if relId ∈ seen then relSyntheticId seen.length :: auditRelIdsGo seen rest
    else relId :: auditRelIdsGo (seen ++ [relId]) rest

/-- Identifier rewriting performed by _ValidateRelationships on the ordered
list of relationship entries of one relationship part. -/
def auditRelIds (ids : List Str) : List Str := auditRelIdsGo [] ids

/-- Python str.isspace(): nonempty and all whitespace. -/
def pyIsSpace (s : Str) : Bool := !s.isEmpty && s.all Char.isWhitespace

/-- Outcome of GrammarCorrectorForm.CorrectGrammar: the returned value
(none models the implicit Python None return, reachable only with
retryCount = 0), the number of HTTP attempts made, and the total seconds
slept in time.sleep(2) backoff calls. -/
structure CorrectGrammarOutcome where
  result : Option Str
  attemptsMade : Nat
  sleepSeconds : Nat
deriving DecidableEq, Repr

/-- The retry loop of CorrectGrammar (lines 762-775): attempt is the
external request, returning some corrected text on success and none on any
of the caught failures (requests.RequestException, json.JSONDecodeError,
KeyError, IndexError); on failure before the last attempt the code sleeps
2 seconds and retries, and on the last attempt it returns the original
text. -/
def correctGrammarLoop (attempt : Nat → Option Str) (text : Str) (retryCount : Nat) :
    List Nat → Nat → Nat → CorrectGrammarOutcome
  | [], made, slept => ⟨none, made, slept⟩
  | i :: rest, made, slept =>
    match attempt i with
    | some r => ⟨some r, made + 1, slept⟩
    | none =>
      if i < retryCount - 1 then
        correctGrammarLoop attempt text retryCount rest (made + 1) (slept + 2)
      else ⟨some text, made + 1, slept⟩

/-- Model of GrammarCorrectorForm.CorrectGrammar (lines 751-775): empty or
whitespace-only text is returned at once without any attempt; otherwise the
retry loop runs over range(retryCount). -/
def CorrectGrammar (attempt : Nat → Option Str) (text : Str) (retryCount : Nat) :
    CorrectGrammarOutcome :=
  if text.isEmpty || pyIsSpace text then ⟨some text, 0, 0⟩
  else correctGrammarLoop attempt text retryCount (List.range retryCount) 0 0

/-- Per-part step of DocxValidator._ValidateAndFixXmlFiles (lines 81-94)
and XMLDocumentCorrector._ValidateXmlFiles (lines 181-192): the
error-tolerant lxml parse is abstracted as a function returning the
recovered tree together with len(parser.error_log), or none when even the
recovering parse raises; the pretty-printed UTF-8-declared re-serialization
tree.write(..., encoding UTF-8, xml_declaration, pretty_print) is
abstracted as serializePretty.  Returns the resulting part bytes and the
per-part success flag. -/
def validateAndFixXmlFile {Tree : Type} (parse : Str → Option (Nat × Tree))
    (serializePretty : Tree → Str) (bytes : Str) : Str × Bool :=
  match parse bytes with
  | none => (bytes, false)
  | some (errors, tree) => (if errors > 0 then serializePretty tree else bytes, true)

/-- State of the run texts after the first k iterations of the write-back
loop at lines 383-384 of _DistributeCorrectedTextImproved: the first k runs
hold their new texts, the remaining runs still hold their old texts. -/
def assignLoopState (elems newTexts : List Str) (k : Nat) : List Str :=
  newTexts.take k ++ elems.drop k

/-- Run texts at the moment an unexpected exception interrupts the
write-back loop of _DistributeCorrectedTextImproved after k completed
iterations. -/
def improvedFaultState (elems : List Str) (orig corr : Str) (k : Nat) : List Str :=
  assignLoopState elems (improvedElementTexts elems orig corr) k

/-- _DistributeCorrectedTextImproved when an unexpected exception interrupts
the write-back loop after k iterations: the except handler at lines 385-390
runs on whatever intermediate state the loop reached. -/
def distributeImprovedWithFault (elems : List Str) (orig corr : Str) (k : Nat) : List Str :=
  singleRunFallback (improvedFaultState elems orig corr k) corr

/-- State of the run texts after the first k iterations of the assignment
loop at lines 271-277 of _DistributeTextToParagraph (general branch): the
first k nonempty runs hold their new slices, all later runs still hold
their old texts.  _DistributeTextToParagraph has no try/except, so an
exception interrupting the loop propagates out of the function and this is
the state the paragraph is left in. -/
def sliceAssignUpTo (orig corr : Str) : List Str → Nat → Nat → List Str
  | [], _, _ => []
  | e :: rest, pos, k =>
    if e.length = 0 then e :: sliceAssignUpTo orig corr rest pos k
    else
      match k with
      | 0 => e :: rest
      | Nat.succ k2 =>
        (corr.drop (min ((pos * corr.length) / orig.length) corr.length)).take
            (min (((pos + e.length) * corr.length) / orig.length) corr.length
              - min ((pos * corr.length) / orig.length) corr.length)
          :: sliceAssignUpTo orig corr rest (pos + e.length) k2

/-- Run texts _DistributeTextToParagraph leaves behind when an unexpected
exception interrupts its assignment loop after k completed iterations. -/
def sliceFaultState (elems : List Str) (orig corr : Str) (k : Nat) : List Str :=
  sliceAssignUpTo orig corr elems 0 k


/-! Basic length facts. -/

lemma charPositions_length (elems : List Str) :
    (charPositions elems).length = (elems.map List.length).sum := by
  induction elems with
  | nil => simp [charPositions]
  | cons e rest ih => simp [charPositions, ih]

lemma charPositions_mem_lt (elems : List Str) :
    ∀ x ∈ charPositions elems, x < elems.length := by
  induction elems with
  | nil => simp [charPositions]
  | cons e rest ih =>
    intro x hx
    simp only [charPositions, List.mem_append, List.mem_map] at hx
    rcases hx with hx | ⟨y, hy, rfl⟩
    · have := List.eq_of_mem_replicate hx
      subst this
      simp
    · have := ih y hy
      simp only [List.length_cons]
      omega

lemma charPositions_pairwise (elems : List Str) :
    List.Pairwise (· ≤ ·) (charPositions elems) := by
  induction elems with
  | nil => simp [charPositions]
  | cons e rest ih =>
    simp only [charPositions, List.pairwise_append]
    refine ⟨?_, ?_, ?_⟩
    · simp
    · exact (List.pairwise_map).mpr (ih.imp fun h => by omega)
    · intro a ha b hb
      have := List.eq_of_mem_replicate ha
      subst this
      exact Nat.zero_le b

lemma getD_le_getD_of_pairwise (l : List Nat) (hl : List.Pairwise (· ≤ ·) l)
    (a b : Nat) (hab : a ≤ b) (hb : b < l.length) :
    l.getD a 0 ≤ l.getD b 0 := by
  rcases Nat.eq_or_lt_of_le hab with rfl | hlt
  · exact le_rfl
  · rw [List.getD_eq_getElem _ _ (lt_trans hlt hb), List.getD_eq_getElem _ _ hb]
    exact List.pairwise_iff_getElem.mp hl a b (lt_trans hlt hb) hb hlt

lemma bucketAdd_length (buckets : List Str) (idx : Nat) (c : Char) :
    (bucketAdd buckets idx c).length = buckets.length := by
  simp [bucketAdd]

lemma distributeCharsGo_length (posIdx : Nat → Nat) (s : Str) :
    ∀ (i : Nat) (buckets : List Str),
      (distributeCharsGo posIdx i buckets s).length = buckets.length := by
  induction s with
  | nil => intro i buckets; rfl
  | cons c rest ih =>
    intro i buckets
    rw [distributeCharsGo, ih, bucketAdd_length]

lemma distributeChars_length (posIdx : Nat → Nat) (n : Nat) (corr : Str) :
    (distributeChars posIdx n corr).length = n := by
  rw [distributeChars, distributeCharsGo_length, List.length_replicate]

lemma improvedElementTexts_length (elems : List Str) (orig corr : Str) :
    (improvedElementTexts elems orig corr).length = elems.length :=
  distributeChars_length _ _ _

lemma singleRunFallback_length (elems : List Str) (corr : Str) :
    (singleRunFallback elems corr).length = elems.length := by
  cases elems <;> simp [singleRunFallback]

lemma sliceAssign_length (orig corr : Str) :
    ∀ (elems : List Str) (pos : Nat),
      (sliceAssign orig corr elems pos).length = elems.length := by
  intro elems
  induction elems with
  | nil => intro pos; rfl
  | cons e rest ih =>
    intro pos
    by_cases he : e.length = 0 <;> simp [sliceAssign, he, ih]

lemma distributeCorrectedTextImproved_length (elems : List Str) (orig corr : Str) :
    (distributeCorrectedTextImproved elems orig corr).length = elems.length := by
  rw [distributeCorrectedTextImproved.eq_def]
  split
  · exact singleRunFallback_length elems corr
  · split
    · cases elems <;> simp
    · exact improvedElementTexts_length elems orig corr

lemma distributeTextToParagraph_length (elems : List Str) (orig corr : Str) :
    (distributeTextToParagraph elems orig corr).length = elems.length := by
  rw [distributeTextToParagraph]
  split
  · exact singleRunFallback_length elems corr
  · exact sliceAssign_length orig corr elems 0

/-! Concatenation facts. -/

lemma flatten_map_const_nil (l : List Str) : (l.map fun _ => ([] : Str)).flatten = [] := by
  induction l <;> simp [*]

lemma flatten_singleRunFallback (elems : List Str) (corr : Str) (hne : elems ≠ []) :
    (singleRunFallback elems corr).flatten = corr := by
  cases elems with
  | nil => exact absurd rfl hne
  | cons e rest => simp [singleRunFallback, flatten_map_const_nil]

lemma getD_set_ne (B : List Str) (k j : Nat) (v : Str) (h : j ≠ k) :
    (B.set k v).getD j [] = B.getD j [] := by
  simp [List.getD_eq_getElem?_getD, List.getElem?_set_ne (Ne.symm h)]

lemma getD_set_self (B : List Str) (k : Nat) (v : Str) (h : k < B.length) :
    (B.set k v).getD k [] = v := by
  simp [List.getD_eq_getElem?_getD, List.getElem?_set_self h]

lemma getD_replicate_nil (n j : Nat) : (List.replicate n ([] : Str)).getD j [] = [] := by
  simp [List.getD_eq_getElem?_getD, List.getElem?_replicate]
  split <;> simp

lemma flatten_replicate_nil (n : Nat) : (List.replicate n ([] : Str)).flatten = [] := by
  induction n <;> simp [*]

lemma flatten_bucketAdd (B : List Str) (k : Nat) (c : Char) (hk : k < B.length)
    (hempty : ∀ j, k < j → B.getD j [] = []) :
    (bucketAdd B k c).flatten = B.flatten ++ [c] := by
  induction B generalizing k with
  | nil => simp at hk
  | cons b bs ih =>
    cases k with
    | zero =>
      have hbs : ∀ x ∈ bs, x = [] := by
        intro x hx
        obtain ⟨m, hm, rfl⟩ := List.getElem_of_mem hx
        have h2 := hempty (m + 1) (by omega)
        rwa [List.getD_cons_succ, List.getD_eq_getElem _ _ hm] at h2
      have hflat : bs.flatten = [] := List.flatten_eq_nil_iff.mpr hbs
      simp [bucketAdd, hflat]
    | succ k2 =>
      have hstep : bucketAdd (b :: bs) (k2 + 1) c = b :: bucketAdd bs k2 c := by
        simp [bucketAdd]
      rw [hstep]
      simp only [List.flatten_cons]
      rw [ih k2 (by simpa using hk) (fun j hj => by
        have h2 := hempty (j + 1) (by omega)
        rwa [List.getD_cons_succ] at h2)]
      simp

lemma flatten_distributeCharsGo (posIdx : Nat → Nat)
    (hmono : ∀ a b, a ≤ b → posIdx a ≤ posIdx b) (s : Str) :
    ∀ (i : Nat) (B : List Str),
      (∀ k, posIdx k < B.length) →
      (∀ j, posIdx i < j → B.getD j [] = []) →
      (distributeCharsGo posIdx i B s).flatten = B.flatten ++ s := by
  induction s with
  | nil => intro i B h1 h3; simp [distributeCharsGo]
  | cons c rest ih =>
    intro i B h1 h3
    rw [distributeCharsGo]
    rw [ih (i + 1) (bucketAdd B (posIdx i) c) (fun k => by rw [bucketAdd_length]; exact h1 k)
      (fun j hj => by
        have hle : posIdx i ≤ posIdx (i + 1) := hmono i (i + 1) (by omega)
        have hne : j ≠ posIdx i := by omega
        simp only [bucketAdd]
        rw [getD_set_ne _ _ _ _ hne]
        exact h3 j (by omega))]
    rw [flatten_bucketAdd B (posIdx i) c (h1 i) h3]
    simp

lemma flatten_distributeChars (posIdx : Nat → Nat) (n : Nat) (corr : Str)
    (hmono : ∀ a b, a ≤ b → posIdx a ≤ posIdx b) (hlt : ∀ k, posIdx k < n) :
    (distributeChars posIdx n corr).flatten = corr := by
  rw [distributeChars]
  rw [flatten_distributeCharsGo posIdx hmono corr 0 (List.replicate n [])
    (fun k => by rw [List.length_replicate]; exact hlt k)
    (fun j hj => getD_replicate_nil n j)]
  rw [flatten_replicate_nil]
  rfl

lemma improvedPosIdx_lt (elems : List Str) (origLen corrLen : Nat)
    (htot : (elems.map List.length).sum ≠ 0) (i : Nat) :
    improvedPosIdx elems origLen corrLen i < elems.length := by
  have hlen : (charPositions elems).length ≠ 0 := by
    rw [charPositions_length]; exact htot
  rw [improvedPosIdx]
  have hmin := Nat.min_le_right ((i * origLen) / corrLen) ((charPositions elems).length - 1)
  have hidx : min ((i * origLen) / corrLen) ((charPositions elems).length - 1)
      < (charPositions elems).length := by omega
  rw [List.getD_eq_getElem _ _ hidx]
  exact charPositions_mem_lt elems _ (List.getElem_mem hidx)

lemma improvedPosIdx_mono (elems : List Str) (origLen corrLen : Nat)
    (htot : (elems.map List.length).sum ≠ 0) (a b : Nat) (hab : a ≤ b) :
    improvedPosIdx elems origLen corrLen a ≤ improvedPosIdx elems origLen corrLen b := by
  have hlen : (charPositions elems).length ≠ 0 := by
    rw [charPositions_length]; exact htot
  rw [improvedPosIdx, improvedPosIdx]
  have hmin := Nat.min_le_right ((b * origLen) / corrLen) ((charPositions elems).length - 1)
  refine getD_le_getD_of_pairwise _ (charPositions_pairwise elems) _ _ ?_ (by omega)
  exact min_le_min (Nat.div_le_div_right (Nat.mul_le_mul_right origLen hab)) le_rfl

lemma flatten_improvedElementTexts (elems : List Str) (orig corr : Str)
    (htot : (elems.map List.length).sum ≠ 0) :
    (improvedElementTexts elems orig corr).flatten = corr :=
  flatten_distributeChars _ _ _
    (improvedPosIdx_mono elems orig.length corr.length htot)
    (improvedPosIdx_lt elems orig.length corr.length htot)

lemma flatten_distributeCorrectedTextImproved (elems : List Str) (orig corr : Str)
    (hne : elems ≠ []) (horig : orig = elems.flatten) :
    (distributeCorrectedTextImproved elems orig corr).flatten = corr := by
  rw [distributeCorrectedTextImproved.eq_def]
  split
  · exact flatten_singleRunFallback elems corr hne
  · rename_i hguard
    push_neg at hguard
    have htot : (elems.map List.length).sum ≠ 0 := by
      have hlen : orig.length = (elems.map List.length).sum := by
        rw [horig, List.length_flatten]
      omega
    split
    · rename_i hzero
      exact absurd hzero htot
    · exact flatten_improvedElementTexts elems orig corr htot

lemma take_drop_take (l : Str) (a b c : Nat) (hab : a ≤ b) (hbc : b ≤ c) :
    (l.drop a).take (b - a) ++ (l.drop b).take (c - b) = (l.drop a).take (c - a) := by
  have h1 : l.drop b = (l.drop a).drop (b - a) := by
    rw [List.drop_drop]
    congr 1
    omega
  rw [h1, ← List.take_add]
  congr 1
  omega

lemma sliceBound_mono (origLen corrLen p q : Nat) (hpq : p ≤ q) :
    min ((p * corrLen) / origLen) corrLen ≤ min ((q * corrLen) / origLen) corrLen :=
  min_le_min (Nat.div_le_div_right (Nat.mul_le_mul_right corrLen hpq)) le_rfl

lemma flatten_sliceAssign (orig corr : Str) :
    ∀ (elems : List Str) (pos : Nat),
      (sliceAssign orig corr elems pos).flatten
        = (corr.drop (min ((pos * corr.length) / orig.length) corr.length)).take
            (min (((pos + (elems.map List.length).sum) * corr.length) / orig.length) corr.length
              - min ((pos * corr.length) / orig.length) corr.length) := by
  intro elems
  induction elems with
  | nil => intro pos; simp [sliceAssign]
  | cons e rest ih =>
    intro pos
    by_cases he : e.length = 0
    · have hee : e = [] := List.length_eq_zero.mp he
      rw [sliceAssign]
      rw [if_pos he]
      simp only [List.flatten_cons, hee, List.nil_append, ih pos, List.map_cons, List.sum_cons,
        List.length_nil, Nat.zero_add]
    · rw [sliceAssign]
      rw [if_neg he]
      simp only [List.flatten_cons, ih (pos + e.length), List.map_cons, List.sum_cons]
      have hassoc : pos + (e.length + (rest.map List.length).sum)
          = pos + e.length + (rest.map List.length).sum := by omega
      rw [hassoc]
      exact take_drop_take corr _ _ _
        (sliceBound_mono orig.length corr.length pos (pos + e.length) (by omega))
        (sliceBound_mono orig.length corr.length (pos + e.length)
          (pos + e.length + (rest.map List.length).sum) (by omega))

lemma flatten_distributeTextToParagraph (elems : List Str) (orig corr : Str)
    (hne : elems ≠ []) (horig : orig = elems.flatten) :
    (distributeTextToParagraph elems orig corr).flatten = corr := by
  simp only [distributeTextToParagraph]
  split
  · exact flatten_singleRunFallback elems corr hne
  · rename_i hguard
    push_neg at hguard
    have horiglen : orig.length ≠ 0 := by
      intro h0
      exact hguard.1 (List.length_eq_zero.mp h0)
    have hsum : (elems.map List.length).sum = orig.length := by
      rw [horig, List.length_flatten]
    rw [flatten_sliceAssign orig corr elems 0]
    simp only [Nat.zero_mul, Nat.zero_div, Nat.zero_add, Nat.min_eq_left (Nat.zero_le _),
      List.drop_zero, Nat.sub_zero, hsum]
    rw [Nat.mul_div_cancel_left corr.length (Nat.pos_of_ne_zero horiglen)]
    rw [Nat.min_self]
    exact List.take_length corr

/-! Idempotence machinery: distributing the original text over its own
position index returns the original run texts. -/

lemma distributeCharsGo_append (posIdx : Nat → Nat) (xs ys : Str) :
    ∀ (i : Nat) (B : List Str),
      distributeCharsGo posIdx i B (xs ++ ys)
        = distributeCharsGo posIdx (i + xs.length) (distributeCharsGo posIdx i B xs) ys := by
  induction xs with
  | nil => intro i B; simp [distributeCharsGo]
  | cons c rest ih =>
    intro i B
    simp only [List.cons_append, List.length_cons, distributeCharsGo, List.append_eq]
    rw [ih]
    have harith : i + 1 + rest.length = i + (rest.length + 1) := by omega
    rw [harith]

lemma set_getD_self (B : List Str) (j : Nat) (h : j < B.length) :
    B.set j (B.getD j []) = B := by
  induction B generalizing j with
  | nil => simp at h
  | cons b bs ih =>
    cases j with
    | zero => simp
    | succ j2 =>
      simp only [List.getD_cons_succ, List.set_cons_succ]
      rw [ih j2 (by simpa using h)]

lemma distributeCharsGo_const_key (posIdx : Nat → Nat) (e : Str) :
    ∀ (i0 : Nat) (B : List Str) (j0 : Nat), j0 < B.length →
      (∀ k, k < e.length → posIdx (i0 + k) = j0) →
      distributeCharsGo posIdx i0 B e = B.set j0 (B.getD j0 [] ++ e) := by
  induction e with
  | nil =>
    intro i0 B j0 hj0 hk
    rw [distributeCharsGo, List.append_nil]
    exact (set_getD_self B j0 hj0).symm
  | cons c rest ih =>
    intro i0 B j0 hj0 hk
    rw [distributeCharsGo]
    have h0 : posIdx i0 = j0 := by
      have h00 := hk 0 (by simp)
      simpa using h00
    rw [h0]
    rw [ih (i0 + 1) (bucketAdd B j0 c) j0 (by rw [bucketAdd_length]; exact hj0)
      (fun k hkk => by
        have hk2 := hk (k + 1) (by simp only [List.length_cons]; omega)
        rwa [show i0 + 1 + k = i0 + (k + 1) by omega])]
    simp only [bucketAdd]
    rw [getD_set_self B j0 _ hj0, List.set_set]
    congr 1
    simp

lemma charPositions_getD_left (e : Str) (rest : List Str) (k : Nat) (hk : k < e.length) :
    (charPositions (e :: rest)).getD k 0 = 0 := by
  rw [charPositions]
  rw [List.getD_append _ _ _ _ (by simpa using hk)]
  rw [List.getD_eq_getElem _ _ (by simpa using hk)]
  simp

lemma charPositions_getD_right (e : Str) (rest : List Str) (k : Nat)
    (hk : k < (charPositions rest).length) :
    (charPositions (e :: rest)).getD (e.length + k) 0 = (charPositions rest).getD k 0 + 1 := by
  rw [charPositions]
  rw [List.getD_append_right _ _ _ _ (by simp)]
  simp only [List.length_replicate, Nat.add_sub_cancel_left]
  rw [List.getD_eq_getElem _ _ (by simpa using hk), List.getD_eq_getElem _ _ hk]
  simp

lemma distributeCharsGo_segments (posIdx : Nat → Nat) :
    ∀ (elems : List Str) (i0 j0 : Nat) (B : List Str),
      B.length = j0 + elems.length →
      (∀ x ∈ B.drop j0, x = ([] : Str)) →
      (∀ k, k < elems.flatten.length →
        posIdx (i0 + k) = j0 + (charPositions elems).getD k 0) →
      distributeCharsGo posIdx i0 B elems.flatten = B.take j0 ++ elems := by
  intro elems
  induction elems with
  | nil =>
    intro i0 j0 B hlen hdrop hkey
    have hlen2 : B.length = j0 := by simpa using hlen
    simp only [List.flatten_nil, distributeCharsGo, List.append_nil]
    exact (List.take_of_length_le (by omega)).symm
  | cons e rest ih =>
    intro i0 j0 B hlen hdrop hkey
    have hj0 : j0 < B.length := by
      rw [hlen, List.length_cons]; omega
    have hgetD : B.getD j0 [] = [] := by
      rw [List.getD_eq_getElem _ _ hj0]
      exact hdrop _ (by rw [List.drop_eq_getElem_cons hj0]; exact List.mem_cons_self _ _)
    have hflatlen : (e :: rest).flatten.length = e.length + rest.flatten.length := by
      rw [List.flatten_cons, List.length_append]
    rw [List.flatten_cons, distributeCharsGo_append]
    rw [distributeCharsGo_const_key posIdx e i0 B j0 hj0 (fun k hk => by
      rw [hkey k (by omega), charPositions_getD_left e rest k hk, Nat.add_zero])]
    rw [hgetD, List.nil_append]
    have hcpsrest : (charPositions rest).length = rest.flatten.length := by
      rw [charPositions_length, List.length_flatten]
    rw [ih (i0 + e.length) (j0 + 1) (B.set j0 e)
      (by rw [List.length_set, hlen, List.length_cons]; omega)
      (by
        intro x hx
        rw [List.drop_set] at hx
        rw [if_pos (Nat.lt_succ_self j0)] at hx
        have hx2 : x ∈ B.drop j0 := by
          have hdd : (B.drop j0).drop 1 = B.drop (j0 + 1) := by
            rw [List.drop_drop]
          rw [← hdd] at hx
          exact List.mem_of_mem_drop hx
        exact hdrop x hx2)
      (by
        intro k hk
        have hb : e.length + k < (e :: rest).flatten.length := by omega
        have hstep := hkey (e.length + k) hb
        rw [show i0 + e.length + k = i0 + (e.length + k) by omega, hstep,
          charPositions_getD_right e rest k (by omega)]
        omega)]
    have htake : (B.set j0 e).take (j0 + 1) = B.take j0 ++ [e] := by
      rw [List.set_eq_take_cons_drop e hj0]
      rw [List.take_append_eq_append_take]
      rw [List.take_of_length_le (by rw [List.length_take]; omega)]
      congr 1
      rw [List.length_take]
      have hone : j0 + 1 - min j0 B.length = 1 := by omega
      rw [hone]
      simp
    rw [htake]
    simp

lemma map_const_nil_of_all_nil (l : List Str) (h : ∀ x ∈ l, x = ([] : Str)) :
    (l.map fun _ => ([] : Str)) = l := by
  induction l with
  | nil => rfl
  | cons x xs ih =>
    have hx := h x (List.mem_cons_self x xs)
    simp only [List.map_cons]
    rw [ih (fun y hy => h y (List.mem_cons_of_mem x hy)), hx]

lemma improved_idempotent (elems : List Str) (orig : Str) (horig : orig = elems.flatten) :
    distributeCorrectedTextImproved elems orig orig = elems := by
  rw [distributeCorrectedTextImproved.eq_def]
  split
  · rename_i hguard
    have horignil : orig = [] := by
      rcases hguard with h | h <;> exact List.length_eq_zero.mp h
    have hall : ∀ x ∈ elems, x = ([] : Str) := by
      rw [horignil] at horig
      exact List.flatten_eq_nil_iff.mp horig.symm
    cases elems with
    | nil => rfl
    | cons e rest =>
      have he : e = [] := hall e (List.mem_cons_self e rest)
      simp only [singleRunFallback, horignil]
      rw [map_const_nil_of_all_nil rest (fun y hy => hall y (List.mem_cons_of_mem e hy)), he]
  · rename_i hguard
    push_neg at hguard
    have hsum : orig.length = (elems.map List.length).sum := by
      rw [horig, List.length_flatten]
    split
    · rename_i hzero
      omega
    · rename_i hzero
      rw [improvedElementTexts, distributeChars]
      have hcps_len : (charPositions elems).length = orig.length := by
        rw [charPositions_length]; omega
      have hLo : 0 < orig.length := Nat.pos_of_ne_zero hguard.1
      have hkey : ∀ k, k < elems.flatten.length →
          improvedPosIdx elems orig.length orig.length (0 + k)
            = 0 + (charPositions elems).getD k 0 := by
        intro k hk
        have hkb : k < orig.length := by
          rw [horig]; omega
        rw [Nat.zero_add, Nat.zero_add, improvedPosIdx]
        rw [Nat.mul_div_cancel _ hLo]
        rw [Nat.min_eq_left (by omega)]
      have hseg := distributeCharsGo_segments (improvedPosIdx elems orig.length orig.length)
        elems 0 0 (List.replicate elems.length [])
        (by simp)
        (fun x hx => List.eq_of_mem_replicate (List.mem_of_mem_drop hx))
        hkey
      calc distributeCharsGo (improvedPosIdx elems orig.length orig.length) 0
            (List.replicate elems.length []) orig
          = distributeCharsGo (improvedPosIdx elems orig.length orig.length) 0
            (List.replicate elems.length []) elems.flatten := by rw [← horig]
        _ = (List.replicate elems.length ([] : Str)).take 0 ++ elems := hseg
        _ = elems := by simp

/-! Support lemmas for the batching, audit, retry and fault models. -/

lemma processSingleParagraph_of_not_needs (correct : Str → Str) (runs : List Str)
    (h : needsCorrection runs = false) : processSingleParagraph correct runs = runs := by
  simp [processSingleParagraph, h]

lemma auditRelIdsGo_length (ids : List Str) :
    ∀ seen : List Str, (auditRelIdsGo seen ids).length = ids.length := by
  induction ids with
  | nil => intro seen; rfl
  | cons i rest ih =>
    intro seen
    by_cases h : i ∈ seen <;> simp [auditRelIdsGo, h, ih]

lemma map_const_nil_eq_replicate (l : List Str) :
    (l.map fun _ => ([] : Str)) = List.replicate l.length [] := by
  induction l <;> simp [*, List.replicate_succ]

lemma singleRunFallback_congr (st elems : List Str) (corr : Str)
    (hlen : st.length = elems.length) :
    singleRunFallback st corr = singleRunFallback elems corr := by
  cases st with
  | nil =>
    cases elems with
    | nil => rfl
    | cons e r => simp at hlen
  | cons s r1 =>
    cases elems with
    | nil => simp at hlen
    | cons e r2 =>
      simp only [singleRunFallback]
      rw [map_const_nil_eq_replicate, map_const_nil_eq_replicate]
      simp only [List.length_cons] at hlen
      rw [show r1.length = r2.length by omega]

lemma improvedFaultState_length (elems : List Str) (orig corr : Str) (k : Nat) :
    (improvedFaultState elems orig corr k).length = elems.length := by
  rw [improvedFaultState, assignLoopState]
  rw [List.length_append, List.length_take, List.length_drop, improvedElementTexts_length]
  omega

lemma correctGrammarLoop_attempts (attempt : Nat → Option Str) (text : Str) (retryCount : Nat) :
    ∀ (ids : List Nat) (made slept : Nat),
      (correctGrammarLoop attempt text retryCount ids made slept).attemptsMade
        ≤ made + ids.length := by
  intro ids
  induction ids with
  | nil => intro made slept; simp [correctGrammarLoop]
  | cons i rest ih =>
    intro made slept
    rw [correctGrammarLoop]
    cases attempt i with
    | some r => simp
    | none =>
      simp only
      split
      · exact le_trans (ih (made + 1) (slept + 2)) (by simp [List.length_cons]; omega)
      · simp [List.length_cons]

/-! Claim theorems. -/

/-- C1: run-count invariant — for every list of run texts and all original
and corrected texts, both redistribution implementations return exactly as
many run texts as they were given; runs are only re-texted, never added,
removed, merged or split. -/
theorem claim_C1 (elems : List Str) (orig corr : Str) :
    (distributeCorrectedTextImproved elems orig corr).length = elems.length
    ∧ (distributeTextToParagraph elems orig corr).length = elems.length :=
  ⟨distributeCorrectedTextImproved_length elems orig corr,
   distributeTextToParagraph_length elems orig corr⟩

/-- C2: concatenation invariant — for every paragraph with at least one run
whose original text is the in-order concatenation of its run texts, and for
every corrected text (including all degenerate cases), the concatenation of
the output run texts of either redistribution implementation is exactly the
corrected text. -/
theorem claim_C2 (elems : List Str) (orig corr : Str) (hne : elems ≠ [])
    (horig : orig = elems.flatten) :
    (distributeCorrectedTextImproved elems orig corr).flatten = corr
    ∧ (distributeTextToParagraph elems orig corr).flatten = corr :=
  ⟨flatten_distributeCorrectedTextImproved elems orig corr hne horig,
   flatten_distributeTextToParagraph elems orig corr hne horig⟩

theorem claim_C2_witness :
    (distributeCorrectedTextImproved [chars "Hello ", chars "wrld"] (chars "Hello wrld")
      (chars "Hello world")).flatten = chars "Hello world"
    ∧ (distributeTextToParagraph [chars "Hello ", chars "wrld"] (chars "Hello wrld")
      (chars "Hello world")).flatten = chars "Hello world" :=
  claim_C2 [chars "Hello ", chars "wrld"] (chars "Hello wrld") (chars "Hello world")
    (by decide) (by decide)

/-- C3: idempotence — redistributing a paragraph with corrected text equal
to its own text (the concatenation of its run texts) leaves every run text
unchanged, and in the batching loop a matched (original, corrected) pair
with equal texts is skipped and never rewrites the run structure. -/
theorem claim_C3 :
    (∀ (elems : List Str) (orig : Str), orig = elems.flatten →
      distributeCorrectedTextImproved elems orig orig = elems)
    ∧ ∀ (runs : List Str) (t : Str), applyCorrectedSection runs t t = runs := by
  constructor
  · exact improved_idempotent
  · intro runs t
    simp [applyCorrectedSection]

theorem claim_C3_witness :
    distributeCorrectedTextImproved [chars "ab", chars "c"] (chars "abc") (chars "abc")
      = [chars "ab", chars "c"]
    ∧ applyCorrectedSection [chars "x"] (chars "x") (chars "x") = [chars "x"] :=
  ⟨claim_C3.1 [chars "ab", chars "c"] (chars "abc") (by decide),
   claim_C3.2 [chars "x"] (chars "x")⟩

/-- C4: batch fallback — when the number of sections obtained by splitting
the batched correction answer on the sentinel differs from the number of
collected paragraphs, the batched answer is discarded and every paragraph
of the batch is processed exactly as by the individual per-paragraph
correction (one correction call per collected paragraph), so no paragraph
is skipped or receives another paragraph's text. -/
theorem claim_C4 (correct : Str → Str) (batch : List (List Str))
    (hne : batch.filter needsCorrection ≠ [])
    (hmismatch : (pySplit (correct (List.intercalate sectionBreak
        ((batch.filter needsCorrection).map List.flatten))) sectionBreak).length
      ≠ (batch.filter needsCorrection).length) :
    processParagraphBatch correct batch = batch.map (processSingleParagraph correct) := by
  rw [processParagraphBatch]
  rw [if_neg (by simpa [List.isEmpty_iff, List.map_eq_nil_iff] using hne)]
  rw [if_pos hmismatch]
  refine List.map_congr_left ?_
  intro runs hruns
  by_cases h : needsCorrection runs
  · rw [if_pos h]
  · rw [if_neg (by simp [h]), processSingleParagraph_of_not_needs correct runs (by simpa using h)]

theorem claim_C4_witness :
    processParagraphBatch (fun _ => chars "x\n==SECTION_BREAK==\ny")
        [[chars "ab"], [chars "cd"], [chars "ef"]]
      = [[chars "ab"], [chars "cd"], [chars "ef"]].map
          (processSingleParagraph (fun _ => chars "x\n==SECTION_BREAK==\ny")) :=
  claim_C4 (fun _ => chars "x\n==SECTION_BREAK==\ny")
    [[chars "ab"], [chars "cd"], [chars "ef"]] (by decide) (by decide)

/-- C5 counterexample: on the spec worked example (runs "Hello " and "wrld",
original "Hello wrld", corrected "Hello world") neither implementation
assigns run 1 the text "Hello" and run 2 the text " world". -/
theorem claim_C5_counterexample :
    distributeCorrectedTextImproved [chars "Hello ", chars "wrld"] (chars "Hello wrld")
        (chars "Hello world") ≠ [chars "Hello", chars " world"]
    ∧ distributeTextToParagraph [chars "Hello ", chars "wrld"] (chars "Hello wrld")
        (chars "Hello world") ≠ [chars "Hello", chars " world"] := by
  decide

/-- C5 (amended): on the worked example the character-index implementation
assigns run 1 the text "Hello w" and run 2 the text "orld" (the slice-based
implementation assigns "Hello " and "world"), and the concatenation of the
output run texts is exactly "Hello world". -/
theorem claim_C5 :
    distributeCorrectedTextImproved [chars "Hello ", chars "wrld"] (chars "Hello wrld")
        (chars "Hello world") = [chars "Hello w", chars "orld"]
    ∧ distributeTextToParagraph [chars "Hello ", chars "wrld"] (chars "Hello wrld")
        (chars "Hello world") = [chars "Hello ", chars "world"]
    ∧ (distributeCorrectedTextImproved [chars "Hello ", chars "wrld"] (chars "Hello wrld")
        (chars "Hello world")).flatten = chars "Hello world" := by
  decide

/-- C6: relationship dedup — for the part with two entries both named
"rId1" the audit keeps exactly one "rId1" and renames the duplicate to the
synthetic fresh identifier "R2" (one greater than the one identifier seen
so far), used by no other entry; and for every entry list the audit
preserves the number of entries. -/
theorem claim_C6 :
    auditRelIds [chars "rId1", chars "rId1"] = [chars "rId1", chars "R2"]
    ∧ (auditRelIds [chars "rId1", chars "rId1"]).count (chars "rId1") = 1
    ∧ chars "R2" ∉ [chars "rId1"]
    ∧ ∀ ids : List Str, (auditRelIds ids).length = ids.length :=
  ⟨by decide, by decide, by decide, fun ids => auditRelIdsGo_length ids []⟩

/-- C7 (amended): when an unexpected exception interrupts the write-back
loop of _DistributeCorrectedTextImproved after any number of completed
iterations, the except handler leaves the paragraph in exactly the
degenerate single-run state (whole corrected text in the first run, all
other runs cleared), never in a half-updated state.  The document-body
batch path (_DistributeTextToParagraph) has no such handler; see the
counterexample. -/
theorem claim_C7 (elems : List Str) (orig corr : Str) (k : Nat) (_hne : elems ≠ []) :
    distributeImprovedWithFault elems orig corr k = singleRunFallback elems corr := by
  rw [distributeImprovedWithFault]
  exact singleRunFallback_congr _ _ corr (improvedFaultState_length elems orig corr k)

theorem claim_C7_witness :
    distributeImprovedWithFault [chars "ab", chars "cd"] (chars "abcd") (chars "xy") 1
      = singleRunFallback [chars "ab", chars "cd"] (chars "xy") :=
  claim_C7 [chars "ab", chars "cd"] (chars "abcd") (chars "xy") 1 (by decide)

/-- C7 counterexample: an exception interrupting the assignment loop of
_DistributeTextToParagraph (the document-body batch path, which has no
try/except) after one completed iteration leaves the paragraph half
updated: run 1 already re-texted to "x", run 2 still holding the stale
"cd" — neither the degenerate single-run state nor the original state. -/
theorem claim_C7_counterexample :
    sliceFaultState [chars "ab", chars "cd"] (chars "abcd") (chars "xy") 1
        = [chars "x", chars "cd"]
    ∧ sliceFaultState [chars "ab", chars "cd"] (chars "abcd") (chars "xy") 1
        ≠ singleRunFallback [chars "ab", chars "cd"] (chars "xy")
    ∧ sliceFaultState [chars "ab", chars "cd"] (chars "abcd") (chars "xy") 1
        ≠ [chars "ab", chars "cd"] := by
  decide

/-- C8: correction-call degradation — for non-empty, non-whitespace text
the call makes at most 3 attempts, and when every attempt fails it returns
the original text (not an exception), having made exactly 3 attempts with a
fixed 2-second backoff between consecutive failed attempts (4 seconds of
sleep in total). -/
theorem claim_C8 (attempt : Nat → Option Str) (text : Str)
    (hne : text ≠ []) (hws : pyIsSpace text = false) :
    (CorrectGrammar attempt text 3).attemptsMade ≤ 3
    ∧ ((∀ i, attempt i = none) →
        CorrectGrammar attempt text 3
          = ⟨some text, 3, 4⟩) := by
  have hempty : text.isEmpty = false := by
    simpa [List.isEmpty_eq_false] using hne
  have hguard : (text.isEmpty || pyIsSpace text) = false := by
    rw [hempty, hws]
    rfl
  constructor
  · rw [CorrectGrammar, if_neg (by simp [hguard])]
    exact le_trans (correctGrammarLoop_attempts attempt text 3 (List.range 3) 0 0)
      (by simp)
  · intro hatt
    rw [CorrectGrammar, if_neg (by simp [hguard])]
    rw [show List.range 3 = [0, 1, 2] from rfl]
    rw [correctGrammarLoop, hatt 0]
    simp only [if_pos (by omega : (0 : Nat) < 3 - 1)]
    rw [correctGrammarLoop, hatt 1]
    simp only [if_pos (by omega : (1 : Nat) < 3 - 1)]
    rw [correctGrammarLoop, hatt 2]
    simp only [if_neg (by omega : ¬ (2 : Nat) < 3 - 1)]

theorem claim_C8_witness :
    (CorrectGrammar (fun _ => none) (chars "abc") 3).attemptsMade ≤ 3
    ∧ CorrectGrammar (fun _ => none) (chars "abc") 3
        = ⟨some (chars "abc"), 3, 4⟩ :=
  ⟨(claim_C8 (fun _ => none) (chars "abc") (by decide) (by decide)).1,
   (claim_C8 (fun _ => none) (chars "abc") (by decide) (by decide)).2 (fun i => rfl)⟩

/-- C9: repair-pass no-churn — for every part whose recovering parse
succeeds, a zero error count leaves the part bytes exactly unchanged, and a
nonzero error count replaces them with the pretty-printed UTF-8-declared
re-serialization of the recovered tree. -/
theorem claim_C9 {Tree : Type} (parse : Str → Option (Nat × Tree))
    (serializePretty : Tree → Str) (bytes : Str) (errors : Nat) (tree : Tree)
    (hparse : parse bytes = some (errors, tree)) :
    (errors = 0 → (validateAndFixXmlFile parse serializePretty bytes).1 = bytes)
    ∧ (errors ≠ 0 → (validateAndFixXmlFile parse serializePretty bytes).1
        = serializePretty tree) := by
  simp only [validateAndFixXmlFile, hparse]
  constructor
  · intro h0
    rw [if_neg (by omega)]
  · intro h0
    rw [if_pos (Nat.pos_of_ne_zero h0)]

theorem claim_C9_witness :
    (validateAndFixXmlFile (fun _ => some ((0 : Nat), (0 : Nat))) (fun _ => ([] : Str))
      (chars "a")).1 = chars "a" :=
  (claim_C9 (fun _ => some ((0 : Nat), (0 : Nat))) (fun _ => ([] : Str))
    (chars "a") 0 0 rfl).1 rfl

/-- C10 counterexample: the two redistribution implementations are not
equivalent — on runs "Hello " and "wrld" with corrected text "Hello world"
they assign different run texts. -/
theorem claim_C10_counterexample :
    distributeCorrectedTextImproved [chars "Hello ", chars "wrld"] (chars "Hello wrld")
        (chars "Hello world")
      ≠ distributeTextToParagraph [chars "Hello ", chars "wrld"] (chars "Hello wrld")
        (chars "Hello world") := by
  decide

/-- C10 (amended): for every paragraph with at least one run whose original
text is the concatenation of its run texts, the two implementations agree
on the number of output runs and on the concatenation of the output run
texts (both equal the corrected text), though not necessarily on the
individual run texts. -/
theorem claim_C10 (elems : List Str) (orig corr : Str) (hne : elems ≠ [])
    (horig : orig = elems.flatten) :
    (distributeTextToParagraph elems orig corr).length
        = (distributeCorrectedTextImproved elems orig corr).length
    ∧ (distributeTextToParagraph elems orig corr).flatten
        = (distributeCorrectedTextImproved elems orig corr).flatten := by
  constructor
  · rw [distributeTextToParagraph_length, distributeCorrectedTextImproved_length]
  · rw [flatten_distributeTextToParagraph elems orig corr hne horig,
      flatten_distributeCorrectedTextImproved elems orig corr hne horig]

theorem claim_C10_witness :
    (distributeTextToParagraph [chars "ab", chars "cd"] (chars "abcd") (chars "xyz")).length
        = (distributeCorrectedTextImproved [chars "ab", chars "cd"] (chars "abcd")
            (chars "xyz")).length
    ∧ (distributeTextToParagraph [chars "ab", chars "cd"] (chars "abcd")
          (chars "xyz")).flatten
        = (distributeCorrectedTextImproved [chars "ab", chars "cd"] (chars "abcd")
            (chars "xyz")).flatten :=
  claim_C10 [chars "ab", chars "cd"] (chars "abcd") (chars "xyz") (by decide) (by decide)
